import Mathlib

/-!
Shallow embedding of the retrying, short-TTL-cached CoinGecko client facade
(`src/app/core/coingecko.py`), the HTTP error mapper
(`src/app/utils/exceptions.py`), the lazy-singleton wallet-SDK initializer
(`src/app/services/coinbase_service.py`) and the Redis cache wrapper
(`src/app/core/cache.py`) of the cryptoTradin repository, together with
theorems settling the specification claims about them.
-/

namespace CryptoTradin

/-- Lexicographic (code-point) strict comparison of strings, the order Python
uses when comparing `str` values. Defined structurally on the character lists
so that it evaluates inside the kernel. -/
def strLtb : List Char → List Char → Bool
  | [], [] => false
  | [], _ :: _ => true
  | _ :: _, [] => false
  | a :: as, b :: bs => if a < b then true else if b < a then false else strLtb as bs

/-- Non-strict string comparison, `s <= t` in Python. -/
def strLeb (s t : List Char) : Bool := !(strLtb t s)

theorem strLtb_irrefl (s : List Char) : strLtb s s = false := by
  induction s with
  | nil => rfl
  | cons a as ih => simp [strLtb, lt_irrefl, ih]

theorem strLtb_asymm (s t : List Char) (h : strLtb s t = true) : strLtb t s = false := by
  induction s generalizing t with
  | nil =>
    cases t with
    | nil => rfl
    | cons b bs => rfl
  | cons a as ih =>
    cases t with
    | nil => exact absurd h (by simp [strLtb])
    | cons b bs =>
      rcases lt_trichotomy a b with hab | hab | hab
      · simp [strLtb, hab, asymm hab, lt_asymm hab]
      · subst hab
        simp only [strLtb, lt_irrefl, if_false] at h ⊢
        exact ih bs h
      · simp [strLtb, hab, asymm hab, lt_asymm hab] at h

theorem strLtb_eq_of_not (s t : List Char) (h₁ : strLtb s t = false)
    (h₂ : strLtb t s = false) : s = t := by
  induction s generalizing t with
  | nil =>
    cases t with
    | nil => rfl
    | cons b bs => exact absurd h₁ (by simp [strLtb])
  | cons a as ih =>
    cases t with
    | nil => exact absurd h₂ (by simp [strLtb])
    | cons b bs =>
      rcases lt_trichotomy a b with hab | hab | hab
      · simp [strLtb, hab] at h₁
      · subst hab
        simp only [strLtb, lt_irrefl, if_false] at h₁ h₂
        exact congrArg (a :: ·) (ih bs h₁ h₂)
      · simp [strLtb, hab, asymm hab, lt_asymm hab] at h₂

theorem strLtb_trans (s t u : List Char) (h₁ : strLtb s t = true)
    (h₂ : strLtb t u = true) : strLtb s u = true := by
  induction s generalizing t u with
  | nil =>
    cases u with
    | nil =>
      cases t with
      | nil => exact h₂
      | cons b bs => exact absurd h₂ (by simp [strLtb])
    | cons c cs => rfl
  | cons a as ih =>
    cases t with
    | nil => exact absurd h₁ (by simp [strLtb])
    | cons b bs =>
      cases u with
      | nil => exact absurd h₂ (by simp [strLtb])
      | cons c cs =>
        rcases lt_trichotomy a b with hab | hab | hab
        · rcases lt_trichotomy b c with hbc | hbc | hbc
          · have : a < c := lt_trans hab hbc
            simp [strLtb, this]
          · subst hbc; simp [strLtb, hab]
          · simp [strLtb, hbc, asymm hbc, lt_asymm hbc] at h₂
        · subst hab
          simp only [strLtb, lt_irrefl, if_false] at h₁
          rcases lt_trichotomy a c with hac | hac | hac
          · simp [strLtb, hac]
          · subst hac
            simp only [strLtb, lt_irrefl, if_false] at h₂ ⊢
            exact ih bs cs h₁ h₂
          · simp [strLtb, hac, asymm hac, lt_asymm hac] at h₂
        · simp [strLtb, hab, asymm hab, lt_asymm hab] at h₁

theorem strLtb_trichotomy (s t : List Char) :
    strLtb s t = true ∨ s = t ∨ strLtb t s = true := by
  cases h₁ : strLtb s t with
  | true => exact Or.inl rfl
  | false =>
    cases h₂ : strLtb t s with
    | true => exact Or.inr (Or.inr rfl)
    | false => exact Or.inr (Or.inl (strLtb_eq_of_not s t h₁ h₂))

theorem strLeb_total (s t : List Char) : strLeb s t = true ∨ strLeb t s = true := by
  unfold strLeb
  cases h : strLtb t s with
  | false => exact Or.inl (by simp)
  | true => exact Or.inr (by simp [strLtb_asymm _ _ h])

theorem strLeb_trans (s t u : List Char) (h₁ : strLeb s t = true)
    (h₂ : strLeb t u = true) : strLeb s u = true := by
  unfold strLeb at h₁ h₂ ⊢
  simp only [Bool.not_eq_true'] at h₁ h₂ ⊢
  cases hus : strLtb u s with
  | false => rfl
  | true =>
    rcases strLtb_trichotomy t s with h | h | h
    · exact absurd h₁ (by simp [h])
    · subst h
      exact absurd h₂ (by simp [hus])
    · have := strLtb_trans u s t hus h
      exact absurd h₂ (by simp [this])

theorem strLeb_antisymm (s t : List Char) (h₁ : strLeb s t = true)
    (h₂ : strLeb t s = true) : s = t := by
  unfold strLeb at h₁ h₂
  simp only [Bool.not_eq_true'] at h₁ h₂
  exact strLtb_eq_of_not s t h₂ h₁

/-- Order on stringified keyword-argument `(name, value)` pairs mirroring the
Python tuple comparison performed by `sorted(kwargs.items())`: compare the
names and, on equal names, the values. -/
def kvLe (p q : String × String) : Prop :=
  strLtb p.1.data q.1.data = true ∨ (p.1 = q.1 ∧ strLeb p.2.data q.2.data = true)

instance : DecidableRel kvLe := fun p q =>
  inferInstanceAs
    (Decidable (strLtb p.1.data q.1.data = true ∨ (p.1 = q.1 ∧ strLeb p.2.data q.2.data = true)))

theorem string_eq_of_data_eq {s t : String} (h : s.data = t.data) : s = t := by
  cases s; cases t; exact congrArg String.mk h

instance : IsTotal (String × String) kvLe := by
  constructor
  intro p q
  rcases strLtb_trichotomy p.1.data q.1.data with h | h | h
  · exact Or.inl (Or.inl h)
  · have hpq : p.1 = q.1 := string_eq_of_data_eq h
    rcases strLeb_total p.2.data q.2.data with h2 | h2
    · exact Or.inl (Or.inr ⟨hpq, h2⟩)
    · exact Or.inr (Or.inr ⟨hpq.symm, h2⟩)
  · exact Or.inr (Or.inl h)

instance : IsTrans (String × String) kvLe := by
  constructor
  intro p q r hpq hqr
  rcases hpq with h1 | ⟨e1, v1⟩
  · rcases hqr with h2 | ⟨e2, _⟩
    · exact Or.inl (strLtb_trans _ _ _ h1 h2)
    · exact Or.inl (e2 ▸ h1)
  · rcases hqr with h2 | ⟨e2, v2⟩
    · exact Or.inl (e1 ▸ h2)
    · exact Or.inr ⟨e1.trans e2, strLeb_trans _ _ _ v1 v2⟩

instance : IsAntisymm (String × String) kvLe := by
  constructor
  intro p q hpq hqp
  rcases hpq with h1 | ⟨e1, v1⟩
  · rcases hqp with h2 | ⟨e2, _⟩
    · exact absurd (strLtb_trans _ _ _ h1 h2) (by simp [strLtb_irrefl])
    · exact absurd (e2 ▸ h1) (by simp [strLtb_irrefl])
  · rcases hqp with h2 | ⟨_, v2⟩
    · exact absurd (e1 ▸ h2) (by simp [strLtb_irrefl])
    · exact Prod.ext e1 (string_eq_of_data_eq (strLeb_antisymm _ _ v1 v2))

/-- `CoinGeckoClient._get_cache_key`: builds `"method:arg1:...:k1:v1:..."` from
the method name, the stringified positional arguments, and `"k:v"` fragments
for the keyword arguments sorted by Python tuple order (names are distinct in
a kwargs dict, so this is sorting by name). -/
def _get_cache_key (method : String) (args : List String)
    (kwargs : List (String × String)) : String :=
  String.intercalate ":"
    (method :: (args ++ (kwargs.insertionSort kvLe).map (fun kv => kv.1 ++ ":" ++ kv.2)))

/-- Sanity check of the key format on a concrete call. -/
theorem cache_key_format_sample :
    _get_cache_key "get_price" [] [("vs_currencies", "usd"), ("ids", "bitcoin")]
      = "get_price:ids:bitcoin:vs_currencies:usd" := by decide

/-- Python exception values relevant to this code base. `coinGeckoAPIError`
is the domain error of `app/utils/exceptions.py` (an `HTTPException` carrying
status 503 and a detail message); `httpException` is any other FastAPI
`HTTPException`; `retryError` is the `tenacity.RetryError` wrapper raised when
a retry-decorated function exhausts its attempts; `other` is any further
exception, identified by its `str()` rendering. -/
inductive PyExc where
  | coinGeckoAPIError (detail : String)
  | httpException (statusCode : Nat) (detail : String)
  | retryError (last : PyExc)
  | other (msg : String)
deriving DecidableEq, Repr

/-- Python `str(e)` for the exceptions modelled above. For a FastAPI
`HTTPException` this is `"status_code: detail"`; for a plain exception it is
its message. -/
def strOf : PyExc → String
  | .coinGeckoAPIError d => "503: " ++ d
  | .httpException s d => toString s ++ ": " ++ d
  | .retryError _ => "RetryError"
  | .other m => m

/-- `handle_api_error` from `app/utils/exceptions.py`. It inspects the caught
exception and raises (here: returns) the `HTTPException` sent to the client:
a `CoinGeckoAPIError` becomes a 503 whose detail prefixes the handler message
to the original detail, any other `HTTPException` is re-raised unchanged, and
every remaining exception becomes a 500 whose detail is the handler message
followed by the fixed text `"Error interno del servidor"`. -/
def handle_api_error (error : PyExc) (message : String) : PyExc :=
  match error with
  | .coinGeckoAPIError detail => .httpException 503 (message ++ ": " ++ detail)
  | .httpException s d => .httpException s d
  | _ => .httpException 500 (message ++ ": Error interno del servidor")

/-- The in-process cache of `CoinGeckoClient`: a mapping from key strings to
`(insertion time, result)` pairs, modelling the Python dict `self._cache`. -/
def Cache (V : Type) := String → Option (Int × V)

/-- A fresh `CoinGeckoClient` starts with an empty cache. -/
def emptyCache (V : Type) : Cache V := fun _ => none

/-- `self._cache_duration = 60`, the single global TTL in seconds. -/
def cache_duration : Int := 60

/-- `CoinGeckoClient._is_cache_valid`: an entry is valid when it exists and
`time.time() - timestamp < self._cache_duration`. -/
def _is_cache_valid (cache : Cache V) (now : Int) (cache_key : String) : Bool :=
  match cache cache_key with
  | none => false
  | some (timestamp, _) => decide (now - timestamp < cache_duration)

/-- `CoinGeckoClient._cached_call`: compute the cache key from the method name
and the stringified arguments; if the entry is valid return it, otherwise
invoke the underlying method and store `(time.time(), result)` under the key.
Returns the outcome, the updated cache, and whether the underlying method was
invoked. A raising method leaves the cache unchanged (the store line is never
reached). -/
def _cached_call (cache : Cache V) (now : Int) (methodName : String)
    (args : List String) (kwargs : List (String × String))
    (method : Unit → Except PyExc V) : Except PyExc V × Cache V × Bool :=
  let cache_key := _get_cache_key methodName args kwargs
  if _is_cache_valid cache now cache_key then
    match cache cache_key with
    | some (_, v) => (.ok v, cache, false)
    | none => (.error (.other "KeyError"), cache, false)
  else
    match method () with
    | .ok result =>
      (.ok result, fun k => if k = cache_key then some (now, result) else cache k, true)
    | .error e => (.error e, cache, true)

/-- `CoinGeckoClient.clear_cache`: `self._cache.clear()`. -/
def clear_cache (_cache : Cache V) : Cache V := fun _ => none

/-- Inner loop of tenacity `@retry(stop=stop_after_attempt(maxAttempts), ...)`
with the default `reraise=False`: run the wrapped body; on success return its
value, and once `attempt_number >= maxAttempts` all failed, raise `RetryError`
wrapping the exception of the last attempt. The remaining fuel is
`maxAttempts - attempt + 1`; the second component counts attempts performed. -/
def retryLoop (body : Nat → Except PyExc α) : Nat → Nat → Except PyExc α × Nat
  | 0, attempt => (.error (.retryError (.other "no attempts allowed")), attempt - 1)
  | fuel + 1, attempt =>
    match body attempt with
    | .ok a => (.ok a, attempt)
    | .error e =>
      if fuel = 0 then (.error (.retryError e), attempt)
      else retryLoop body fuel (attempt + 1)

/-- A call through the tenacity `@retry` decorator: attempts are numbered from
1 and at most `maxAttempts` are made. -/
def tenacity_retry (maxAttempts : Nat) (body : Nat → Except PyExc α) :
    Except PyExc α × Nat :=
  retryLoop body maxAttempts 1

/-- `CoinGeckoClient.get_ping`, decorated with `stop_after_attempt(3)`: each
attempt calls `self.client.ping()` and on failure raises
`CoinGeckoAPIError("Error en ping: " + str(e))`. `sdk_ping n` is the outcome
of the SDK call on attempt `n`. -/
def get_ping (sdk_ping : Nat → Except PyExc α) : Except PyExc α × Nat :=
  tenacity_retry 3 (fun n =>
    match sdk_ping n with
    | .ok v => .ok v
    | .error e => .error (.coinGeckoAPIError ("Error en ping: " ++ strOf e)))

/-- `CoinGeckoClient.get_price`, decorated with `stop_after_attempt(2)`: each
attempt runs `self._cached_call(self.client.get_price, ids=ids,
vs_currencies=vs_currencies, include_24hr_change=True)` and on failure raises
`CoinGeckoAPIError("Error al obtener precio: " + str(e))`. Failed attempts do
not modify the cache, so every attempt starts from the same cache. -/
def get_price (cache : Cache V) (now : Int) (ids vs_currencies : String)
    (sdk_get_price : Nat → Unit → Except PyExc V) :
    Except PyExc (V × Cache V) × Nat :=
  tenacity_retry 2 (fun n =>
    match _cached_call cache now "get_price" []
        [("ids", ids), ("vs_currencies", vs_currencies), ("include_24hr_change", "True")]
        (sdk_get_price n) with
    | (.ok v, c, _) => .ok (v, c)
    | (.error e, _, _) => .error (.coinGeckoAPIError ("Error al obtener precio: " ++ strOf e)))

/-- `CoinGeckoClient.get_coin_market_chart_by_id`: before delegating to the
SDK it clamps `days` with `if days > 7: days = 7`, then calls
`self.client.get_coin_market_chart_by_id(id=id, vs_currency=vs_currency,
days=days)` and returns the SDK result. -/
def get_coin_market_chart_by_id (sdk : String → String → Int → V)
    (id vs_currency : String) (days : Int) : V :=
  let days := if days > 7 then 7 else days
  sdk id vs_currency days

/-- `CoinGeckoClient.get_coin_ohlc`: before delegating to the SDK it clamps
`days` with `if days > 1: days = 1`, then calls
`self.client.get_coin_ohlc_by_id(id=id, vs_currency=vs_currency, days=days)`
and returns the SDK result. -/
def get_coin_ohlc (sdk : String → String → Int → V)
    (id vs_currency : String) (days : Int) : V :=
  let days := if days > 1 then 1 else days
  sdk id vs_currency days

/-- The `default_params` dict of `CoinGeckoClient.get_coin_market`, with
values rendered as strings. -/
def default_params : String → Option String := fun k =>
  if k = "vs_currency" then some "usd"
  else if k = "order" then some "market_cap_desc"
  else if k = "per_page" then some "10"
  else if k = "page" then some "1"
  else if k = "sparkline" then some "False"
  else if k = "price_change_percentage" then some "1h,24h,7d"
  else none

/-- `CoinGeckoClient.get_coin_market`: builds `default_params`, overlays the
caller kwargs via `default_params.update(kwargs)`, and passes the merged dict
to `self.client.get_coins_markets`. -/
def get_coin_market (sdk : (String → Option String) → V)
    (kwargs : String → Option String) : V :=
  sdk (fun k =>
    match kwargs k with
    | some v => some v
    | none => default_params k)

/-- The flags of `CoinbaseService` relevant to initialization:
`self._initialized` and `self._initializing`. -/
structure CBState where
  initialized : Bool
  initializing : Bool
deriving DecidableEq, Repr

/-- A fresh `CoinbaseService` (`__init__`). -/
def cbInit : CBState := { initialized := false, initializing := false }

/-- Environment one `initialize` call observes: whether the three required
environment variables are all present, and the outcome of
`self._get_client()` (`.error`: the SDK constructor raised; `.ok false`:
a falsy client; `.ok true`: a usable client). -/
structure InitEnv where
  envOk : Bool
  clientResult : Except PyExc Bool
deriving Repr

/-- One `CoinbaseService.initialize` call. The `asyncio.Lock` serializes
concurrent callers, so calls are modelled as sequential steps. Returns the
boolean result, the state afterwards, and the number of times the
client-creation step `self._get_client()` ran during the call (0 or 1).
`self._initializing` is set before the work and reset in the `finally`
block, so it is false again at the end of every non-waiting call. -/
def cbInitialize (s : CBState) (env : InitEnv) : Bool × CBState × Nat :=
  if s.initialized then (true, s, 0)
  else if s.initializing then (false, s, 0)
  else if env.envOk = false then (false, { s with initializing := false }, 0)
  else
    match env.clientResult with
    | .error _ => (false, { s with initializing := false }, 1)
    | .ok false => (false, { s with initializing := false }, 1)
    | .ok true => (true, { initialized := true, initializing := false }, 1)

/-- A sequence of serialized `initialize` calls: final state, total number of
client creations, and the list of boolean results. -/
def runInitCalls : CBState → List InitEnv → CBState × Nat × List Bool
  | s, [] => (s, 0, [])
  | s, env :: rest =>
    let r := cbInitialize s env
    let t := runInitCalls r.2.1 rest
    (t.1, r.2.2 + t.2.1, r.1 :: t.2.2)

/-- Number of calls in a sequence that both run the client-creation step and
return `True` (i.e. successful initializations). -/
def countSuccInits : CBState → List InitEnv → Nat
  | _, [] => 0
  | s, env :: rest =>
    let r := cbInitialize s env
    (if r.1 = true ∧ r.2.2 ≠ 0 then 1 else 0) + countSuccInits r.2.1 rest

/-- Value a `RedisCache.get` produces: either the JSON-decoded payload or, if
`json.loads` raises, the raw string. -/
inductive RVal where
  | json (v : String)
  | raw (s : String)
deriving DecidableEq, Repr

namespace RedisCache

/-- `RedisCache.get`: returns `None` when no client is configured; otherwise
fetch the key (`backend` is the outcome of `self.redis_client.get(key)`), and
for a truthy value try `json.loads`, falling back to the raw string; any
backend exception is caught and `None` returned. An empty string is falsy in
Python, so it also yields `None`. -/
def get (clientSet : Bool) (key : String)
    (backend : String → Except PyExc (Option String))
    (loads : String → Except PyExc String) : Option RVal :=
  if clientSet = false then none
  else
    match backend key with
    | .error _ => none
    | .ok none => none
    | .ok (some value) =>
      if value = "" then none
      else
        match loads value with
        | .ok j => some (.json j)
        | .error _ => some (.raw value)

/-- Python truthiness of the `expire: int = None` parameter of
`RedisCache.set`: `None` and `0` are falsy. -/
def truthyExpire : Option Int → Bool
  | none => false
  | some n => decide (n ≠ 0)

/-- `RedisCache.set`: returns `False` when no client is configured; otherwise
runs `setex` when `expire` is truthy and a plain `set` otherwise
(`backendSetex`/`backendSet` are the outcomes of those Redis calls applied to
the key and the `json.dumps` rendering of the value), returning `True` on
success and `False` when the call raises. -/
def set (clientSet : Bool) (key value : String) (expire : Option Int)
    (backendSetex : String → Int → String → Except PyExc Unit)
    (backendSet : String → String → Except PyExc Unit) : Bool :=
  if clientSet = false then false
  else if truthyExpire expire then
    match backendSetex key (expire.getD 0) value with
    | .ok _ => true
    | .error _ => false
  else
    match backendSet key value with
    | .ok _ => true
    | .error _ => false

/-- `RedisCache.setex`: delegates to `self.set(key, value, seconds)`. -/
def setex (clientSet : Bool) (key : String) (seconds : Int) (value : String)
    (backendSetex : String → Int → String → Except PyExc Unit)
    (backendSet : String → String → Except PyExc Unit) : Bool :=
  set clientSet key value (some seconds) backendSetex backendSet

/-- `RedisCache.delete`: `False` without a client; otherwise `True` unless the
Redis call raises. -/
def delete (clientSet : Bool) (key : String)
    (backend : String → Except PyExc Nat) : Bool :=
  if clientSet = false then false
  else
    match backend key with
    | .ok _ => true
    | .error _ => false

/-- `RedisCache.exists`: `False` without a client; otherwise whether the Redis
call returned 1, and `False` when it raises. -/
def exists_ (clientSet : Bool) (key : String)
    (backend : String → Except PyExc Nat) : Bool :=
  if clientSet = false then false
  else
    match backend key with
    | .ok n => decide (n = 1)
    | .error _ => false

end RedisCache

/-- Character-level view of `":".join(parts)`: concatenation of the chunks
with a single `:` between consecutive chunks. -/
def joinColon : List (List Char) → List Char
  | [] => []
  | [a] => a
  | a :: b :: l => a ++ ':' :: joinColon (b :: l)

/-- Everything a chunk list contributes to the join after the first chunk. -/
def sepTail : List (List Char) → List Char
  | [] => []
  | a :: l => ':' :: joinColon (a :: l)

theorem joinColon_cons (a : List Char) (l : List (List Char)) :
    joinColon (a :: l) = a ++ sepTail l := by
  cases l with
  | nil => simp [joinColon, sepTail]
  | cons b t => simp [joinColon, sepTail]

theorem joinColon_split (x y : List Char) (l : List (List Char)) :
    joinColon ((x ++ ':' :: y) :: l) = joinColon (x :: y :: l) := by
  cases l with
  | nil => simp [joinColon]
  | cons c t => simp [joinColon, List.append_assoc]

/-- A character is not the separator. -/
def notColon (c : Char) : Bool := c != ':'

/-- A string free of the `:` separator. -/
def colonFree (s : String) : Bool := s.data.all notColon

theorem takeWhile_append_of_all (a r : List Char) (h : ∀ x ∈ a, notColon x = true) :
    (a ++ r).takeWhile notColon = a ++ r.takeWhile notColon := by
  induction a with
  | nil => simp
  | cons x xs ih =>
    have hx : notColon x = true := h x (List.mem_cons_self x xs)
    simp only [List.cons_append, List.takeWhile_cons, hx, if_true]
    exact congrArg (x :: ·) (ih fun y hy => h y (List.mem_cons_of_mem x hy))

theorem dropWhile_append_of_all (a r : List Char) (h : ∀ x ∈ a, notColon x = true) :
    (a ++ r).dropWhile notColon = r.dropWhile notColon := by
  induction a with
  | nil => simp
  | cons x xs ih =>
    have hx : notColon x = true := h x (List.mem_cons_self x xs)
    simp only [List.cons_append, List.dropWhile_cons, hx, if_true]
    exact ih fun y hy => h y (List.mem_cons_of_mem x hy)

theorem sepTail_takeWhile (l : List (List Char)) :
    (sepTail l).takeWhile notColon = [] := by
  cases l with
  | nil => rfl
  | cons a t => simp [sepTail, List.takeWhile_cons, notColon]

theorem sepTail_dropWhile (l : List (List Char)) :
    (sepTail l).dropWhile notColon = sepTail l := by
  cases l with
  | nil => rfl
  | cons a t => simp [sepTail, List.dropWhile_cons, notColon]

theorem joinColon_takeWhile (a : List Char) (l : List (List Char))
    (h : ∀ x ∈ a, notColon x = true) :
    (joinColon (a :: l)).takeWhile notColon = a := by
  rw [joinColon_cons, takeWhile_append_of_all _ _ h, sepTail_takeWhile, List.append_nil]

theorem joinColon_dropWhile (a : List Char) (l : List (List Char))
    (h : ∀ x ∈ a, notColon x = true) :
    (joinColon (a :: l)).dropWhile notColon = sepTail l := by
  rw [joinColon_cons, dropWhile_append_of_all _ _ h, sepTail_dropWhile]

/-- On nonempty lists of separator-free chunks, the colon-join is injective. -/
theorem joinColon_inj : ∀ (l₁ l₂ : List (List Char)),
    (∀ c ∈ l₁, ∀ x ∈ c, notColon x = true) →
    (∀ c ∈ l₂, ∀ x ∈ c, notColon x = true) →
    l₁ ≠ [] → l₂ ≠ [] → joinColon l₁ = joinColon l₂ → l₁ = l₂ := by
  intro l₁
  induction l₁ with
  | nil => intro l₂ _ _ hne; exact absurd rfl hne
  | cons a r₁ ih =>
    intro l₂ h₁ h₂ _ hne₂ heq
    cases l₂ with
    | nil => exact absurd rfl hne₂
    | cons b r₂ =>
      have ha : ∀ x ∈ a, notColon x = true := h₁ a (List.mem_cons_self a r₁)
      have hb : ∀ x ∈ b, notColon x = true := h₂ b (List.mem_cons_self b r₂)
      have hab : a = b := by
        have := congrArg (List.takeWhile notColon) heq
        rwa [joinColon_takeWhile a r₁ ha, joinColon_takeWhile b r₂ hb] at this
      have htail : sepTail r₁ = sepTail r₂ := by
        have := congrArg (List.dropWhile notColon) heq
        rwa [joinColon_dropWhile a r₁ ha, joinColon_dropWhile b r₂ hb] at this
      subst hab
      cases r₁ with
      | nil =>
        cases r₂ with
        | nil => rfl
        | cons c t => exact absurd htail (by simp [sepTail])
      | cons c t =>
        cases r₂ with
        | nil => exact absurd htail (by simp [sepTail])
        | cons d u =>
          simp only [sepTail, List.cons.injEq, true_and] at htail
          have := ih (d :: u)
            (fun c hc => h₁ c (List.mem_cons_of_mem a hc))
            (fun c hc => h₂ c (List.mem_cons_of_mem a hc))
            (by simp) (by simp) htail
          rw [this]

/-- Stripping a common nonempty chunk prefix from equal colon-joins. -/
theorem joinColon_strip : ∀ (pre : List (List Char)) (X Y : List (List Char)),
    pre ≠ [] → joinColon (pre ++ X) = joinColon (pre ++ Y) → sepTail X = sepTail Y := by
  intro pre
  induction pre with
  | nil => intro X Y hne; exact absurd rfl hne
  | cons p pre ih =>
    intro X Y _ h
    cases pre with
    | nil =>
      simp only [List.nil_append, List.cons_append, joinColon_cons] at h
      exact List.append_cancel_left h
    | cons q pre' =>
      simp only [List.cons_append, joinColon_cons] at h
      have h' := List.append_cancel_left h
      simp only [List.cons_append, sepTail, List.cons.injEq, true_and] at h'
      exact ih X Y (by simp) (by simpa using h')

theorem data_append3 (a b c : String) :
    (a ++ b ++ c).data = a.data ++ b.data ++ c.data := by
  simp [String.data_append]

theorem intercalate_go_data : ∀ (as : List String) (acc : String),
    (String.intercalate.go acc ":" as).data = joinColon (acc.data :: as.map String.data) := by
  intro as
  induction as with
  | nil => intro acc; rfl
  | cons a as ih =>
    intro acc
    show (String.intercalate.go (acc ++ ":" ++ a) ":" as).data = _
    rw [ih (acc ++ ":" ++ a)]
    have hdata : (acc ++ ":" ++ a).data = acc.data ++ ':' :: a.data := by
      rw [data_append3]
      show acc.data ++ [':'] ++ a.data = acc.data ++ ':' :: a.data
      simp [List.append_assoc]
    rw [hdata, joinColon_split]
    rfl

theorem intercalate_data (a : String) (as : List String) :
    (String.intercalate ":" (a :: as)).data = joinColon ((a :: as).map String.data) := by
  show (String.intercalate.go a ":" as).data = _
  rw [intercalate_go_data]
  rfl

/-- The chunks the kwargs contribute to the key, one `"k:v"` chunk per pair. -/
def pairChunks (l : List (String × String)) : List (List Char) :=
  l.map (fun p => p.1.data ++ ':' :: p.2.data)

/-- The same kwargs contribution with names and values as separate chunks. -/
def flatChunks (l : List (String × String)) : List (List Char) :=
  l.flatMap (fun p => [p.1.data, p.2.data])

theorem pairChunks_cons (p : String × String) (l : List (String × String)) :
    pairChunks (p :: l) = (p.1.data ++ ':' :: p.2.data) :: pairChunks l := rfl

theorem flatChunks_cons (p : String × String) (l : List (String × String)) :
    flatChunks (p :: l) = p.1.data :: p.2.data :: flatChunks l := rfl

theorem sepTail_cons (a : List Char) (l : List (List Char)) :
    sepTail (a :: l) = ':' :: joinColon (a :: l) := rfl

theorem joinColon_pair_flat : ∀ (pre : List (List Char)) (l : List (String × String)),
    joinColon (pre ++ pairChunks l) = joinColon (pre ++ flatChunks l) := by
  intro pre
  induction pre with
  | nil =>
    intro l
    induction l with
    | nil => rfl
    | cons p rest ihl =>
      simp only [List.nil_append] at ihl ⊢
      rw [pairChunks_cons, flatChunks_cons, joinColon_split]
      rw [joinColon_cons p.1.data (p.2.data :: pairChunks rest),
        joinColon_cons p.1.data (p.2.data :: flatChunks rest),
        sepTail_cons, sepTail_cons,
        joinColon_cons p.2.data (pairChunks rest),
        joinColon_cons p.2.data (flatChunks rest)]
      have htail : sepTail (pairChunks rest) = sepTail (flatChunks rest) := by
        cases rest with
        | nil => rfl
        | cons q t =>
          rw [pairChunks_cons, flatChunks_cons, sepTail_cons, sepTail_cons]
          rw [show joinColon ((q.1.data ++ ':' :: q.2.data) :: pairChunks t)
              = joinColon (pairChunks (q :: t)) from rfl]
          rw [show joinColon (q.1.data :: q.2.data :: flatChunks t)
              = joinColon (flatChunks (q :: t)) from rfl]
          exact congrArg (':' :: ·) ihl
      rw [htail]
  | cons p pre ih =>
    intro l
    simp only [List.cons_append, joinColon_cons p]
    have htail : sepTail (pre ++ pairChunks l) = sepTail (pre ++ flatChunks l) := by
      cases pre with
      | nil =>
        simp only [List.nil_append]
        cases l with
        | nil => rfl
        | cons q t =>
          rw [pairChunks_cons, flatChunks_cons, sepTail_cons, sepTail_cons]
          rw [show joinColon ((q.1.data ++ ':' :: q.2.data) :: pairChunks t)
              = joinColon (pairChunks (q :: t)) from rfl]
          rw [show joinColon (q.1.data :: q.2.data :: flatChunks t)
              = joinColon (flatChunks (q :: t)) from rfl]
          exact congrArg (':' :: ·) (by simpa using ih (q :: t))
      | cons q pre' =>
        rw [List.cons_append, List.cons_append, sepTail_cons, sepTail_cons]
        exact congrArg (':' :: ·) (by
          have := ih l
          simpa [List.cons_append] using this)
    rw [htail]

theorem flatChunks_inj : ∀ (l₁ l₂ : List (String × String)),
    flatChunks l₁ = flatChunks l₂ → l₁ = l₂ := by
  intro l₁
  induction l₁ with
  | nil =>
    intro l₂ h
    cases l₂ with
    | nil => rfl
    | cons q t => exact absurd h (by simp [flatChunks])
  | cons p t₁ ih =>
    intro l₂ h
    cases l₂ with
    | nil => exact absurd h (by simp [flatChunks])
    | cons q t₂ =>
      rw [flatChunks_cons, flatChunks_cons] at h
      simp only [List.cons.injEq] at h
      obtain ⟨h1, h2, h3⟩ := h
      have : p = q := Prod.ext (string_eq_of_data_eq h1) (string_eq_of_data_eq h2)
      rw [this, ih t₂ h3]

theorem sepTail_inj_of_colonFree (X Y : List (String × String))
    (hX : ∀ p ∈ X, colonFree p.1 = true ∧ colonFree p.2 = true)
    (hY : ∀ p ∈ Y, colonFree p.1 = true ∧ colonFree p.2 = true)
    (h : sepTail (flatChunks X) = sepTail (flatChunks Y)) : X = Y := by
  have hcfX : ∀ c ∈ flatChunks X, ∀ x ∈ c, notColon x = true := by
    intro c hc x hx
    simp only [flatChunks, List.mem_flatMap, List.mem_cons, List.mem_singleton] at hc
    obtain ⟨p, hp, hpc⟩ := hc
    rcases hpc with rfl | rfl | hfalse
    · exact List.all_eq_true.mp ((hX p hp).1) x hx
    · exact List.all_eq_true.mp ((hX p hp).2) x hx
    · exact absurd hfalse (List.not_mem_nil c)
  have hcfY : ∀ c ∈ flatChunks Y, ∀ x ∈ c, notColon x = true := by
    intro c hc x hx
    simp only [flatChunks, List.mem_flatMap, List.mem_cons, List.mem_singleton] at hc
    obtain ⟨p, hp, hpc⟩ := hc
    rcases hpc with rfl | rfl | hfalse
    · exact List.all_eq_true.mp ((hY p hp).1) x hx
    · exact List.all_eq_true.mp ((hY p hp).2) x hx
    · exact absurd hfalse (List.not_mem_nil c)
  cases X with
  | nil =>
    cases Y with
    | nil => rfl
    | cons q t =>
      rw [flatChunks_cons, sepTail_cons] at h
      exact absurd h (by simp [flatChunks, sepTail])
  | cons p s =>
    cases Y with
    | nil =>
      rw [flatChunks_cons, sepTail_cons] at h
      exact absurd h (by simp [flatChunks, sepTail])
    | cons q t =>
      rw [flatChunks_cons, flatChunks_cons, sepTail_cons, sepTail_cons] at h
      simp only [List.cons.injEq, true_and] at h
      rw [show (p.1.data :: p.2.data :: flatChunks s) = flatChunks (p :: s) from rfl,
        show (q.1.data :: q.2.data :: flatChunks t) = flatChunks (q :: t) from rfl] at h
      have := joinColon_inj (flatChunks (p :: s)) (flatChunks (q :: t)) hcfX hcfY
        (by rw [flatChunks_cons]; simp) (by rw [flatChunks_cons]; simp) h
      exact flatChunks_inj _ _ this

theorem part_data (kv : String × String) :
    (kv.1 ++ ":" ++ kv.2).data = kv.1.data ++ ':' :: kv.2.data := by
  rw [data_append3]
  show kv.1.data ++ [':'] ++ kv.2.data = kv.1.data ++ ':' :: kv.2.data
  simp [List.append_assoc]

theorem get_cache_key_data (method : String) (args : List String)
    (kwargs : List (String × String)) :
    (_get_cache_key method args kwargs).data
      = joinColon ((method.data :: args.map String.data)
          ++ pairChunks (kwargs.insertionSort kvLe)) := by
  unfold _get_cache_key
  rw [intercalate_data]
  simp only [List.map_cons, List.map_append, List.map_map, List.cons_append]
  congr 2
  exact congrArg (List.map String.data args ++ ·)
    (List.map_congr_left fun kv _ => part_data kv)

theorem insertionSort_eq_of_perm {k₁ k₂ : List (String × String)} (h : k₁.Perm k₂) :
    k₁.insertionSort kvLe = k₂.insertionSort kvLe :=
  List.eq_of_perm_of_sorted
    ((List.perm_insertionSort kvLe k₁).trans (h.trans (List.perm_insertionSort kvLe k₂).symm))
    (List.sorted_insertionSort kvLe k₁)
    (List.sorted_insertionSort kvLe k₂)

/-- C4: `_get_cache_key` is a deterministic function of the method name, the
stringified positional arguments and the keyword-argument pairs taken as a
set: presenting the same kwargs mapping in a different insertion order (a
permutation of the pair list) yields the identical cache key, because the
pairs are sorted before being joined. -/
theorem cache_key_kwargs_order_invariant (method : String) (args : List String)
    (kwargs₁ kwargs₂ : List (String × String)) (h : kwargs₁.Perm kwargs₂) :
    _get_cache_key method args kwargs₁ = _get_cache_key method args kwargs₂ := by
  unfold _get_cache_key
  rw [insertionSort_eq_of_perm h]

/-- Witness for C4 at a concrete input: the two kwargs orders of a
`get_price`-style call produce the same key. -/
theorem cache_key_kwargs_order_invariant_witness :
    ([("vs_currencies", "usd"), ("ids", "bitcoin")] : List (String × String)).Perm
      [("ids", "bitcoin"), ("vs_currencies", "usd")]
    ∧ _get_cache_key "get_price" [] [("vs_currencies", "usd"), ("ids", "bitcoin")]
      = _get_cache_key "get_price" [] [("ids", "bitcoin"), ("vs_currencies", "usd")] :=
  ⟨List.Perm.swap ("ids", "bitcoin") ("vs_currencies", "usd") [],
    cache_key_kwargs_order_invariant "get_price" [] _ _
      (List.Perm.swap ("ids", "bitcoin") ("vs_currencies", "usd") [])⟩

/-- C5 counterexample: two calls with the same method name whose kwargs
mappings assign different values to the name `"a"` (and to `"b"`) collide on
the very same cache key, because values containing the `:` separator make the
joined string ambiguous. -/
theorem cache_key_collision_counterexample :
    _get_cache_key "m" [] [("a", "x:b:y"), ("b", "z")]
      = _get_cache_key "m" [] [("a", "x"), ("b", "y:b:z")]
    ∧ ("x:b:y" : String) ≠ "x" := by
  exact ⟨by decide, by decide⟩

/-- C5 amended: for kwargs whose names and values are free of the `:`
separator (as all kwargs values actually passed by the facade are), two calls
with the same method name and positional arguments that produce the same
cache key have the same kwargs mapping; distinct colon-free argument
combinations therefore never collide. -/
theorem cache_key_injective_of_colonFree (method : String) (args : List String)
    (kwargs₁ kwargs₂ : List (String × String))
    (h₁ : ∀ p ∈ kwargs₁, colonFree p.1 = true ∧ colonFree p.2 = true)
    (h₂ : ∀ p ∈ kwargs₂, colonFree p.1 = true ∧ colonFree p.2 = true)
    (hkey : _get_cache_key method args kwargs₁ = _get_cache_key method args kwargs₂) :
    kwargs₁.Perm kwargs₂ := by
  have hdata := congrArg String.data hkey
  rw [get_cache_key_data, get_cache_key_data, joinColon_pair_flat, joinColon_pair_flat]
    at hdata
  have hsep := joinColon_strip _ _ _ (by simp) hdata
  have hmem₁ : ∀ p ∈ kwargs₁.insertionSort kvLe,
      colonFree p.1 = true ∧ colonFree p.2 = true :=
    fun p hp => h₁ p ((List.perm_insertionSort kvLe kwargs₁).subset hp)
  have hmem₂ : ∀ p ∈ kwargs₂.insertionSort kvLe,
      colonFree p.1 = true ∧ colonFree p.2 = true :=
    fun p hp => h₂ p ((List.perm_insertionSort kvLe kwargs₂).subset hp)
  have hsorted := sepTail_inj_of_colonFree _ _ hmem₁ hmem₂ hsep
  exact (List.perm_insertionSort kvLe kwargs₁).symm.trans
    (hsorted ▸ List.perm_insertionSort kvLe kwargs₂)

/-- Witness for the amended C5 at a concrete input. -/
theorem cache_key_injective_of_colonFree_witness :
    (∀ p ∈ ([("ids", "bitcoin"), ("vs_currencies", "usd")] : List (String × String)),
        colonFree p.1 = true ∧ colonFree p.2 = true)
    ∧ ([("ids", "bitcoin"), ("vs_currencies", "usd")] : List (String × String)).Perm
        [("vs_currencies", "usd"), ("ids", "bitcoin")] :=
  ⟨by decide,
    cache_key_injective_of_colonFree "get_price" [] _ _ (by decide) (by decide) (by decide)⟩

theorem cached_call_hit {V : Type} (cache : Cache V) (now : Int) (methodName : String)
    (args : List String) (kwargs : List (String × String)) (g : Unit → Except PyExc V)
    (ts : Int) (v : V)
    (h₁ : cache (_get_cache_key methodName args kwargs) = some (ts, v))
    (h₂ : now - ts < cache_duration) :
    _cached_call cache now methodName args kwargs g = (.ok v, cache, false) := by
  have hvalid : _is_cache_valid cache now (_get_cache_key methodName args kwargs) = true := by
    unfold _is_cache_valid
    rw [h₁]
    simpa using h₂
  unfold _cached_call
  simp only [hvalid, if_true, h₁]

/-- C2: a second `_cached_call` with the identical method name and arguments,
made while the entry left behind by the first call still satisfies
`now - insertion_time < cache_duration`, returns exactly the object stored in
that entry, does not invoke the underlying method a second time, and leaves
the cache untouched. -/
theorem cached_call_hit_within_ttl {V : Type} (cache : Cache V) (t₁ t₂ : Int)
    (methodName : String) (args : List String) (kwargs : List (String × String))
    (f g : Unit → Except PyExc V) (ts : Int) (v : V)
    (h₁ : (_cached_call cache t₁ methodName args kwargs f).2.1
        (_get_cache_key methodName args kwargs) = some (ts, v))
    (h₂ : t₂ - ts < cache_duration) :
    _cached_call ((_cached_call cache t₁ methodName args kwargs f).2.1) t₂
        methodName args kwargs g
      = (.ok v, (_cached_call cache t₁ methodName args kwargs f).2.1, false) :=
  cached_call_hit _ _ _ _ _ _ _ _ h₁ h₂

/-- Witness for C2: a concrete first call at time 0 stores `(0, 7)`; a second
call at time 30 (within the 60-second TTL) returns 7 without invoking the
method again. -/
theorem cached_call_hit_within_ttl_witness :
    (_cached_call (emptyCache Nat) 0 "m" [] [] (fun _ => Except.ok 7)).2.1
        (_get_cache_key "m" [] []) = some (0, 7)
    ∧ ((30 : Int) - 0 < cache_duration)
    ∧ _cached_call ((_cached_call (emptyCache Nat) 0 "m" [] [] (fun _ => Except.ok 7)).2.1)
        30 "m" [] [] (fun _ => Except.ok 8)
      = (.ok 7, (_cached_call (emptyCache Nat) 0 "m" [] [] (fun _ => Except.ok 7)).2.1, false) :=
  ⟨by decide, by decide,
    cached_call_hit_within_ttl (emptyCache Nat) 0 30 "m" [] []
      (fun _ => Except.ok 7) (fun _ => Except.ok 8) 0 7 (by decide) (by decide)⟩

/-- C3: the cache treats a stored entry as valid exactly when
`now - insertion_time < cache_duration`, with the single global duration 60
used for every key; consequently a call made when
`now - insertion_time >= cache_duration` invokes the underlying method afresh
and overwrites the entry with the new `(insertion_time, result)` pair,
leaving every other key unchanged. -/
theorem cache_validity_iff_and_expiry_refresh {V : Type} (cache : Cache V) (now : Int)
    (methodName : String) (args : List String) (kwargs : List (String × String))
    (f : Unit → Except PyExc V) :
    cache_duration = 60
    ∧ (_is_cache_valid cache now (_get_cache_key methodName args kwargs) = true
        ↔ ∃ ts v, cache (_get_cache_key methodName args kwargs) = some (ts, v)
            ∧ now - ts < 60)
    ∧ (∀ (ts : Int) (v : V) (r : V),
        cache (_get_cache_key methodName args kwargs) = some (ts, v) →
        ¬(now - ts < 60) → f () = .ok r →
        _cached_call cache now methodName args kwargs f
          = (.ok r,
              fun k => if k = _get_cache_key methodName args kwargs
                then some (now, r) else cache k,
              true)) := by
  refine ⟨rfl, ?_, ?_⟩
  · unfold _is_cache_valid
    cases hentry : cache (_get_cache_key methodName args kwargs) with
    | none => simp
    | some p =>
      simp only [decide_eq_true_eq]
      constructor
      · intro h; exact ⟨p.1, p.2, rfl, h⟩
      · rintro ⟨ts, v, hsome, hlt⟩
        have : p = (ts, v) := Option.some_inj.mp hsome
        rw [this]
        exact hlt
  · intro ts v r hentry hstale hres
    have hvalid : _is_cache_valid cache now (_get_cache_key methodName args kwargs)
        = false := by
      unfold _is_cache_valid
      rw [hentry]
      simpa using hstale
    unfold _cached_call
    simp only [hvalid, Bool.false_eq_true, if_false, hres]

/-- Witness for C3 at a concrete stale entry: an entry inserted at time 0 is
stale at time 100, so the method runs again and the entry is overwritten with
`(100, 9)`. -/
theorem cache_validity_iff_and_expiry_refresh_witness :
    ((fun k => if k = _get_cache_key "m" [] [] then some ((0 : Int), (5 : Nat)) else none)
        : Cache Nat) (_get_cache_key "m" [] []) = some (0, 5)
    ∧ ¬((100 : Int) - 0 < 60)
    ∧ _cached_call
        ((fun k => if k = _get_cache_key "m" [] [] then some ((0 : Int), (5 : Nat)) else none)
          : Cache Nat) 100 "m" [] [] (fun _ => Except.ok 9)
      = (.ok 9,
          fun k => if k = _get_cache_key "m" [] []
            then some ((100 : Int), (9 : Nat))
            else (fun k => if k = _get_cache_key "m" [] []
              then some ((0 : Int), (5 : Nat)) else none) k,
          true) :=
  ⟨by decide, by decide,
    (cache_validity_iff_and_expiry_refresh
        ((fun k => if k = _get_cache_key "m" [] [] then some ((0 : Int), (5 : Nat)) else none))
        100 "m" [] [] (fun _ => Except.ok 9)).2.2 0 5 9 (by decide) (by decide) rfl⟩

/-- C7: no cache operation except `clear_cache` removes an entry: a
`_cached_call` keeps every present key present, changes no key other than its
own cache key, and `clear_cache` leaves the mapping empty. -/
theorem cache_no_eviction_frame (V : Type) :
    (∀ (cache : Cache V) (now : Int) (methodName : String) (args : List String)
        (kwargs : List (String × String)) (f : Unit → Except PyExc V) (key : String),
      (cache key).isSome = true →
      (((_cached_call cache now methodName args kwargs f).2.1) key).isSome = true)
    ∧ (∀ (cache : Cache V) (now : Int) (methodName : String) (args : List String)
        (kwargs : List (String × String)) (f : Unit → Except PyExc V) (key : String),
      key ≠ _get_cache_key methodName args kwargs →
      ((_cached_call cache now methodName args kwargs f).2.1) key = cache key)
    ∧ (∀ (cache : Cache V) (key : String), clear_cache cache key = none) := by
  refine ⟨?_, ?_, fun _ _ => rfl⟩
  · intro cache now methodName args kwargs f key hsome
    unfold _cached_call
    cases hvalid : _is_cache_valid cache now (_get_cache_key methodName args kwargs) with
    | true =>
      cases hentry : cache (_get_cache_key methodName args kwargs) with
      | none => simpa [hvalid, hentry] using hsome
      | some p => simpa [hvalid, hentry] using hsome
    | false =>
      cases hres : f () with
      | ok r =>
        by_cases hk : key = _get_cache_key methodName args kwargs
        · simp [hvalid, hres, hk]
        · simpa [hvalid, hres, hk] using hsome
      | error e => simpa [hvalid, hres] using hsome
  · intro cache now methodName args kwargs f key hk
    unfold _cached_call
    cases hvalid : _is_cache_valid cache now (_get_cache_key methodName args kwargs) with
    | true =>
      cases hentry : cache (_get_cache_key methodName args kwargs) with
      | none => simp [hvalid, hentry]
      | some p => simp [hvalid, hentry]
    | false =>
      cases hres : f () with
      | ok r => simp [hvalid, hres, hk]
      | error e => simp [hvalid, hres]

/-- Witness for C7 at concrete inputs: a key present before a `_cached_call`
stays present, an unrelated key is untouched, and `clear_cache` empties. -/
theorem cache_no_eviction_frame_witness :
    ((((fun k => if k = "x" then some ((0 : Int), (1 : Nat)) else none) : Cache Nat)
        "x").isSome = true)
    ∧ ((((_cached_call
          ((fun k => if k = "x" then some ((0 : Int), (1 : Nat)) else none) : Cache Nat)
          5 "m" [] [] (fun _ => Except.ok 2)).2.1) "x").isSome = true)
    ∧ ("x" ≠ _get_cache_key "m" [] [])
    ∧ (((_cached_call
          ((fun k => if k = "x" then some ((0 : Int), (1 : Nat)) else none) : Cache Nat)
          5 "m" [] [] (fun _ => Except.ok 2)).2.1) "x"
        = ((fun k => if k = "x" then some ((0 : Int), (1 : Nat)) else none) : Cache Nat) "x")
    ∧ clear_cache ((fun k => if k = "x" then some ((0 : Int), (1 : Nat)) else none)
        : Cache Nat) "q" = none :=
  ⟨by decide,
    (cache_no_eviction_frame Nat).1 _ 5 "m" [] [] (fun _ => Except.ok 2) "x" (by decide),
    by decide,
    (cache_no_eviction_frame Nat).2.1 _ 5 "m" [] [] (fun _ => Except.ok 2) "x" (by decide),
    (cache_no_eviction_frame Nat).2.2 _ "q"⟩

/-- C1 evaluated at an always-failing SDK: `get_ping` performs exactly its
configured maximum of 3 attempts and `get_price` exactly 2, and each attempt
wraps the failure in a `CoinGeckoAPIError` with the configured prefix — but
because the `@retry` decorators leave the tenacity option `reraise` at its
default `False`, what the caller finally sees is `tenacity.RetryError`
wrapping the domain error, not the bare `CoinGeckoAPIError` that the claim
(and `handle_api_error` itself, which special-cases `CoinGeckoAPIError`)
expects. -/
theorem get_ping_retry_exhaustion_eval :
    get_ping (fun _ => (Except.error (PyExc.other "boom") : Except PyExc Nat))
      = (.error (.retryError (.coinGeckoAPIError "Error en ping: boom")), 3)
    ∧ (get_price (emptyCache Nat) 0 "bitcoin" "usd"
        (fun _ _ => Except.error (PyExc.other "down"))).2 = 2
    ∧ (get_price (emptyCache Nat) 0 "bitcoin" "usd"
        (fun _ _ => Except.error (PyExc.other "down"))).1
      = .error (.retryError (.coinGeckoAPIError "Error al obtener precio: down"))
    ∧ (get_ping (fun _ => (Except.error (PyExc.other "boom") : Except PyExc Nat))).1
      ≠ .error (.coinGeckoAPIError "Error en ping: boom") :=
  ⟨rfl, rfl, rfl, by
    intro h
    exact absurd (Except.error.inj h) (by decide)⟩

/-- C6 counterexample: `get_coin_market_chart_by_id` does not pass the caller
days value through unmodified — a caller asking for 30 days reaches the SDK
with 7; `get_coin_ohlc` clamps 30 to 1; and `get_coin_market` injects default
parameters the caller never passed (the SDK sees `per_page=10`). -/
theorem facade_clamps_days_counterexample :
    get_coin_market_chart_by_id (fun _ _ days => days) "bitcoin" "usd" 30 = 7
    ∧ (7 : Int) ≠ 30
    ∧ get_coin_ohlc (fun _ _ days => days) "bitcoin" "usd" 30 = 1
    ∧ get_coin_market (fun p => p "per_page") (fun _ => none) = some "10" :=
  ⟨rfl, by decide, rfl, rfl⟩

/-- C6 amended: on success each facade operation returns exactly what the SDK
call returned, and `id` and `vs_currency` are forwarded unchanged, but `days`
is clamped — `get_coin_market_chart_by_id` forwards `min days 7` and
`get_coin_ohlc` forwards `min days 1` — and `get_coin_market` overlays the
caller kwargs over its trading defaults (caller values win, missing keys get
the defaults). -/
theorem facade_forwarding_amended {V : Type} (sdk sdk2 : String → String → Int → V)
    (id vs_currency : String) (days : Int)
    (kwargs : String → Option String) (k : String) :
    get_coin_market_chart_by_id sdk id vs_currency days = sdk id vs_currency (min days 7)
    ∧ get_coin_ohlc sdk2 id vs_currency days = sdk2 id vs_currency (min days 1)
    ∧ (kwargs k = none → get_coin_market (fun p => p k) kwargs = default_params k)
    ∧ (∀ v, kwargs k = some v → get_coin_market (fun p => p k) kwargs = some v) := by
  refine ⟨?_, ?_, ?_, ?_⟩
  · show sdk id vs_currency (if days > 7 then 7 else days) = sdk id vs_currency (min days 7)
    congr 1
    omega
  · show sdk2 id vs_currency (if days > 1 then 1 else days) = sdk2 id vs_currency (min days 1)
    congr 1
    omega
  · intro h
    simp [get_coin_market, h]
  · intro v h
    simp [get_coin_market, h]

/-- Witness for the amended C6 at concrete inputs. -/
theorem facade_forwarding_amended_witness :
    get_coin_market_chart_by_id (fun _ _ days => days) "bitcoin" "usd" 30 = min 30 7
    ∧ get_coin_ohlc (fun _ _ days => days) "bitcoin" "usd" 30 = min 30 1
    ∧ ((fun key => if key = "vs_currency" then some "eur" else none) "per_page" = none)
    ∧ get_coin_market (fun p => p "per_page")
        (fun key => if key = "vs_currency" then some "eur" else none)
      = default_params "per_page"
    ∧ ((fun key => if key = "vs_currency" then some "eur" else none) "vs_currency"
        = some "eur")
    ∧ get_coin_market (fun p => p "vs_currency")
        (fun key => if key = "vs_currency" then some "eur" else none)
      = some "eur" :=
  ⟨(facade_forwarding_amended (fun _ _ days => days) (fun _ _ days => days) "bitcoin" "usd" 30
      (fun key => if key = "vs_currency" then some "eur" else none) "per_page").1,
    (facade_forwarding_amended (fun _ _ days => days) (fun _ _ days => days) "bitcoin" "usd" 30
      (fun key => if key = "vs_currency" then some "eur" else none) "per_page").2.1,
    by decide,
    (facade_forwarding_amended (fun _ _ days => days) (fun _ _ days => days) "bitcoin" "usd" 30
      (fun key => if key = "vs_currency" then some "eur" else none) "per_page").2.2.1
      (by decide),
    by decide,
    (facade_forwarding_amended (fun _ _ days => days) (fun _ _ days => days) "bitcoin" "usd" 30
      (fun key => if key = "vs_currency" then some "eur" else none) "vs_currency").2.2.2
      "eur" (by decide)⟩

/-- C8 counterexample: for an exception that is neither a `CoinGeckoAPIError`
nor an `HTTPException`, `handle_api_error` produces a 500 whose detail is the
handler message plus the fixed text `"Error interno del servidor"`; the
stringified exception message (`"boom"`) appears nowhere in it. -/
theorem handle_api_error_500_detail_counterexample :
    handle_api_error (.other "boom") "ctx"
      = .httpException 500 "ctx: Error interno del servidor"
    ∧ ¬ List.IsInfix (String.data "boom") (String.data "ctx: Error interno del servidor") :=
  ⟨rfl, by decide⟩

/-- C8 amended: `handle_api_error` maps every `CoinGeckoAPIError` to a 503
whose detail contains the original error message, re-raises any other
`HTTPException` unchanged, and maps every remaining exception (including
tenacity `RetryError`) to a 500 whose detail is the handler message followed
by the fixed text `"Error interno del servidor"` — not the stringified
exception. -/
theorem handle_api_error_mapping_amended (detail message msg d : String) (s : Nat)
    (e : PyExc) :
    handle_api_error (.coinGeckoAPIError detail) message
      = .httpException 503 (message ++ ": " ++ detail)
    ∧ List.IsInfix detail.data ((message ++ ": " ++ detail).data)
    ∧ handle_api_error (.httpException s d) message = .httpException s d
    ∧ handle_api_error (.other msg) message
      = .httpException 500 (message ++ ": Error interno del servidor")
    ∧ handle_api_error (.retryError e) message
      = .httpException 500 (message ++ ": Error interno del servidor") := by
  refine ⟨rfl, ?_, rfl, rfl, rfl⟩
  have hsuffix : List.IsSuffix detail.data ((message ++ ": " ++ detail).data) :=
    ⟨(message ++ ": ").data, (String.data_append (message ++ ": ") detail).symm⟩
  exact hsuffix.isInfix

theorem cbInitialize_of_initialized (s : CBState) (env : InitEnv)
    (h : s.initialized = true) : cbInitialize s env = (true, s, 0) := by
  unfold cbInitialize
  rw [h]
  rfl

theorem runInitCalls_of_initialized (s : CBState) (h : s.initialized = true) :
    ∀ t : List InitEnv, runInitCalls s t = (s, 0, List.replicate t.length true) := by
  intro t
  induction t with
  | nil => rfl
  | cons env rest ih =>
    show (let r := cbInitialize s env
          let u := runInitCalls r.2.1 rest
          (u.1, r.2.2 + u.2.1, r.1 :: u.2.2)) = _
    rw [cbInitialize_of_initialized s env h]
    simp only [ih]
    rfl

theorem countSuccInits_of_initialized (s : CBState) (h : s.initialized = true) :
    ∀ t : List InitEnv, countSuccInits s t = 0 := by
  intro t
  induction t with
  | nil => rfl
  | cons env rest ih =>
    show (if (cbInitialize s env).1 = true ∧ (cbInitialize s env).2.2 ≠ 0 then 1 else 0)
        + countSuccInits (cbInitialize s env).2.1 rest = 0
    rw [cbInitialize_of_initialized s env h]
    simpa using ih

theorem cbInitialize_shape (s : CBState) (env : InitEnv) (h : s.initialized = false) :
    ((cbInitialize s env).1 = false ∧ (cbInitialize s env).2.1.initialized = false)
    ∨ ((cbInitialize s env).1 = true ∧ (cbInitialize s env).2.1.initialized = true) := by
  rcases s with ⟨si, sg⟩
  simp only at h
  subst h
  rcases env with ⟨eo, cr⟩
  cases sg <;> cases eo <;> rcases cr with e | b
  all_goals try cases b
  all_goals simp [cbInitialize]

theorem countSuccInits_le_one : ∀ (t : List InitEnv) (s : CBState),
    countSuccInits s t ≤ 1 := by
  intro t
  induction t with
  | nil => intro s; simp [countSuccInits]
  | cons env rest ih =>
    intro s
    show (if (cbInitialize s env).1 = true ∧ (cbInitialize s env).2.2 ≠ 0 then 1 else 0)
        + countSuccInits (cbInitialize s env).2.1 rest ≤ 1
    cases hs : s.initialized with
    | true =>
      rw [cbInitialize_of_initialized s env hs]
      simp [countSuccInits_of_initialized s hs rest]
    | false =>
      rcases cbInitialize_shape s env hs with ⟨hr, _⟩ | ⟨hr, hinit⟩
      · have : ¬((cbInitialize s env).1 = true ∧ (cbInitialize s env).2.2 ≠ 0) := by
          intro hc
          rw [hr] at hc
          exact absurd hc.1 (by simp)
        rw [if_neg this]
        simpa using ih (cbInitialize s env).2.1
      · rw [countSuccInits_of_initialized _ hinit rest]
        split
        · exact le_refl 1
        · exact Nat.zero_le 1

/-- C9 counterexample: in the reachable sequence in which the SDK-client
constructor raises twice (e.g. the network is down at startup), the
client-creation step runs twice, so it does not run "at most once" in every
reachable sequence of `initialize` calls. -/
theorem initialize_creation_twice_counterexample :
    (runInitCalls cbInit
      [{ envOk := true, clientResult := .error (.other "network down") },
       { envOk := true, clientResult := .error (.other "network down") }]).2.1 = 2
    ∧ (1 : Nat) < 2 :=
  ⟨rfl, by decide⟩

/-- C9 amended: once `initialize` has succeeded and set the initialized flag,
every subsequent call returns `True` immediately, leaves the state unchanged
and never runs the client-creation step again; hence in every sequence of
serialized `initialize` calls the client-creation step *succeeds* at most
once (after a failed creation attempt, a later call may run the step again). -/
theorem initialize_lazy_singleton (s : CBState) (env : InitEnv) (t : List InitEnv)
    (h : s.initialized = true) :
    cbInitialize s env = (true, s, 0)
    ∧ runInitCalls s t = (s, 0, List.replicate t.length true)
    ∧ (∀ (s₀ : CBState) (t₀ : List InitEnv), countSuccInits s₀ t₀ ≤ 1) :=
  ⟨cbInitialize_of_initialized s env h,
    runInitCalls_of_initialized s h t,
    fun s₀ t₀ => countSuccInits_le_one t₀ s₀⟩

/-- Witness for the amended C9 at concrete inputs. -/
theorem initialize_lazy_singleton_witness :
    cbInitialize { initialized := true, initializing := false }
        { envOk := true, clientResult := .ok true }
      = (true, { initialized := true, initializing := false }, 0)
    ∧ runInitCalls { initialized := true, initializing := false }
        [{ envOk := false, clientResult := .error (.other "x") },
         { envOk := true, clientResult := .ok true }]
      = ({ initialized := true, initializing := false }, 0, List.replicate 2 true)
    ∧ countSuccInits cbInit
        [{ envOk := true, clientResult := .ok true },
         { envOk := true, clientResult := .ok true }] ≤ 1 := by
  have h := initialize_lazy_singleton { initialized := true, initializing := false }
    { envOk := true, clientResult := .ok true }
    [{ envOk := false, clientResult := .error (.other "x") },
     { envOk := true, clientResult := .ok true }] rfl
  exact ⟨h.1, h.2.1, h.2.2 cbInit _⟩

/-- C10: every public `RedisCache` operation is total with respect to backend
failure — with no Redis client configured `get` returns `None` and `set`,
`setex`, `delete` and `exists` return `False`, and the same holds when the
underlying Redis call raises; no operation propagates an exception (each is a
total function into `Option`/`Bool`). -/
theorem redis_cache_total_on_failure (key value : String) (expire : Option Int)
    (bg : String → Except PyExc (Option String)) (loads : String → Except PyExc String)
    (bsx : String → Int → String → Except PyExc Unit)
    (bs : String → String → Except PyExc Unit)
    (bn : String → Except PyExc Nat) (e : PyExc) :
    RedisCache.get false key bg loads = none
    ∧ RedisCache.set false key value expire bsx bs = false
    ∧ RedisCache.setex false key 60 value bsx bs = false
    ∧ RedisCache.delete false key bn = false
    ∧ RedisCache.exists_ false key bn = false
    ∧ RedisCache.get true key (fun _ => .error e) loads = none
    ∧ RedisCache.set true key value expire (fun _ _ _ => .error e) (fun _ _ => .error e)
      = false
    ∧ RedisCache.setex true key 60 value (fun _ _ _ => .error e) (fun _ _ => .error e)
      = false
    ∧ RedisCache.delete true key (fun _ => .error e) = false
    ∧ RedisCache.exists_ true key (fun _ => .error e) = false := by
  refine ⟨rfl, rfl, rfl, rfl, rfl, rfl, ?_, ?_, rfl, rfl⟩
  · cases h : RedisCache.truthyExpire expire with
    | true => simp [RedisCache.set, h]
    | false => simp [RedisCache.set, h]
  · simp [RedisCache.setex, RedisCache.set, RedisCache.truthyExpire]

end CryptoTradin
